import Mathlib

/-!
Verification of the client-side documentation search engine
(`normalize`, `makeSnippet`, `searchDocs` from the search module).

Text is embedded as `List Char`.  The JavaScript string primitives used by
the source (`toLowerCase`, `normalize('NFD')` followed by removal of
`\p{Diacritic}`, the `\s+` regex, `trim`, `includes`, `indexOf`, `split`,
`slice`) are modelled as executable functions below; the Unicode-dependent
ones (`toLowerCase`, NFD + diacritic removal, the `\s` character class) are
modelled faithfully for the Basic Latin and Latin-1 ranges, which covers
every input appearing in this repository's document collection.
-/

namespace DocSearch

/-- Model of the regex class `\s` for the common whitespace characters:
space, tab, line feed, carriage return, vertical tab, form feed, NBSP. -/
def isSpaceChar (c : Char) : Bool :=
  c == ' ' || c == '\t' || c == '\n' || c == '\r' ||
    c == Char.ofNat 11 || c == Char.ofNat 12 || c == Char.ofNat 160

/-- Model of `String.prototype.toLowerCase` on the Basic Latin and Latin-1
blocks: `A`–`Z` and `À`–`Þ` (except `×`) map down by 32, everything else is
unchanged. -/
def jsLower (c : Char) : Char :=
  if 65 ≤ c.toNat ∧ c.toNat ≤ 90 then Char.ofNat (c.toNat + 32)
  else if 192 ≤ c.toNat ∧ c.toNat ≤ 222 ∧ c.toNat ≠ 215 then Char.ofNat (c.toNat + 32)
  else c

/-- Decomposition table: precomposed Latin-1 (plus a few Latin Extended-A)
lower-case letters and their base letters, as produced by NFD followed by
removal of the combining mark. -/
def accentTable : List (Char × Char) :=
  [('à', 'a'), ('á', 'a'), ('â', 'a'), ('ã', 'a'), ('ä', 'a'), ('å', 'a'),
   ('ç', 'c'), ('è', 'e'), ('é', 'e'), ('ê', 'e'), ('ë', 'e'),
   ('ì', 'i'), ('í', 'i'), ('î', 'i'), ('ï', 'i'),
   ('ñ', 'n'), ('ò', 'o'), ('ó', 'o'), ('ô', 'o'), ('õ', 'o'), ('ö', 'o'),
   ('ù', 'u'), ('ú', 'u'), ('û', 'u'), ('ü', 'u'), ('ý', 'y'), ('ÿ', 'y')]

/-- Base letter of a precomposed accented letter; identity elsewhere. -/
def baseChar (c : Char) : Char :=
  match accentTable.find? (fun p => p.1 == c) with
  | some p => p.2
  | none => c

/-- Model of `normalize('NFD').replace(/\p{Diacritic}/gu, '')` acting on one
character: standalone combining marks (U+0300–U+036F) are removed, a
precomposed accented letter decomposes and keeps only its base letter. -/
def nfdStrip (c : Char) : Option Char :=
  if 768 ≤ c.toNat ∧ c.toNat ≤ 879 then none else some (baseChar c)

/-- Model of `replace(/\s+/g, ' ')`: the flag records whether the previous
character was whitespace (in which case further whitespace is dropped). -/
def collapseWsAux : Bool → List Char → List Char
  | _, [] => []
  | prev, c :: cs =>
    if isSpaceChar c then
      if prev then collapseWsAux true cs else ' ' :: collapseWsAux true cs
    else c :: collapseWsAux false cs

/-- Collapse every whitespace run to a single space. -/
def collapseWs (l : List Char) : List Char := collapseWsAux false l

/-- Model of `String.prototype.trim`: drop whitespace on both ends. -/
def trimSpaces (l : List Char) : List Char :=
  ((l.dropWhile isSpaceChar).reverse.dropWhile isSpaceChar).reverse

/-- Translation of the source's `normalize`: lower-case, strip accents,
collapse whitespace runs to single spaces, trim. -/
def normalize (text : List Char) : List Char :=
  trimSpaces (collapseWs ((text.map jsLower).filterMap nfdStrip))

/-- Model of `needle.isPrefixOf hay` for character lists. -/
def isPrefList : List Char → List Char → Bool
  | [], _ => true
  | _ :: _, [] => false
  | a :: as, b :: bs => a == b && isPrefList as bs

/-- Model of `String.prototype.indexOf`: index of the first occurrence of
`needle` in `hay`, or `none` (JS `-1`). -/
def indexOfSub (hay needle : List Char) : Option Nat :=
  if isPrefList needle hay then some 0
  else
    match hay with
    | [] => none
    | _ :: t => (indexOfSub t needle).map (· + 1)

/-- Model of `String.prototype.includes`. -/
def containsSub (hay needle : List Char) : Bool :=
  (indexOfSub hay needle).isSome

/-- Model of `String.prototype.split(' ')`: cut at every space character. -/
def splitSp : List Char → List (List Char)
  | [] => [[]]
  | c :: cs =>
    if c == ' ' then [] :: splitSp cs
    else
      match splitSp cs with
      | [] => [[c]]
      | w :: ws => (c :: w) :: ws

/-- Translation of the source's `SearchDoc` record. -/
structure SearchDoc where
  id : List Char
  label : List Char
  category : Option (List Char)
  href : List Char
  content : Option (List Char)
deriving DecidableEq

/-- Translation of the source's `SearchHit` record.  All score weights are
positive integers, so `score` is a natural number. -/
structure SearchHit where
  id : List Char
  label : List Char
  category : Option (List Char)
  href : List Char
  score : Nat
  snippet : Option (List Char)
deriving DecidableEq

/-- Translation of the source's `makeSnippet`.  `rawIdx - 70` on naturals is
exactly `Math.max(0, rawIdx - 70)`, and `slice(start, stop)` is
`drop start` followed by `take (stop - start)`. -/
def makeSnippet (content queryNorm : List Char) : Option (List Char) :=
  let normalized := collapseWs content
  let lower := normalize normalized
  match indexOfSub lower queryNorm with
  | none => none
  | some _ =>
    let rawLower := normalized.map jsLower
    match indexOfSub rawLower queryNorm with
    | none => none
    | some rawIdx =>
      let start := rawIdx - 70
      let stop := min normalized.length (rawIdx + queryNorm.length + 90)
      let pre := if 0 < start then ['…'] else []
      let suf := if stop < normalized.length then ['…'] else []
      some (pre ++ (normalized.drop start).take (stop - start) ++ suf)

/-- Translation of the scoring block of `searchDocs` (lines 99–118 of the
source): base weights for full-query containment in label, category and
content, then the per-word loop adding 8 and 2.  The accumulator order
follows the source's `score` variable. -/
def scoreDoc (qn : List Char) (ws : List (List Char)) (d : SearchDoc) : Nat :=
  let labelNorm := normalize d.label
  let contentNorm := normalize (d.content.getD [])
  let categoryNorm := normalize (d.category.getD [])
  ws.foldl
    (fun s w =>
      s + (if containsSub labelNorm w then 8 else 0)
        + (if containsSub contentNorm w then 2 else 0))
    ((if containsSub labelNorm qn then 40 else 0)
      + (if containsSub categoryNorm qn then 10 else 0)
      + (if containsSub contentNorm qn then 15 else 0))

/-- Translation of the hit-construction step: a document with score `<= 0`
(on naturals, `= 0`) is skipped, otherwise a hit is pushed whose snippet is
computed only when `doc.content` is truthy (present and non-empty). -/
def mkHit (qn : List Char) (ws : List (List Char)) (d : SearchDoc) : Option SearchHit :=
  if scoreDoc qn ws d = 0 then none
  else
    some { id := d.id, label := d.label, category := d.category, href := d.href,
           score := scoreDoc qn ws d,
           snippet :=
             match d.content with
             | some c => if c.isEmpty then none else makeSnippet c qn
             | none => none }

/-- The `hits` array built by the `for` loop of `searchDocs`, in document
order. -/
def collectHits (docs : List SearchDoc) (qn : List Char) (ws : List (List Char)) :
    List SearchHit :=
  docs.filterMap (mkHit qn ws)

/-- Stable descending insertion: a new element goes in front of the first
element whose score is not larger.  Used to model the ECMAScript stable
`Array.prototype.sort` with comparator `(a, b) => b.score - a.score`. -/
def insertHit (h : SearchHit) : List SearchHit → List SearchHit
  | [] => [h]
  | x :: xs => if x.score ≤ h.score then h :: x :: xs else x :: insertHit h xs

/-- Stable sort by score descending (model of the source's
`.sort((a, b) => b.score - a.score)`; ECMAScript sort is stable). -/
def sortHits (l : List SearchHit) : List SearchHit :=
  l.foldr insertHit []

/-- The `words` array of `searchDocs`: the normalized query split on spaces
with empty pieces discarded (`split(' ').filter(Boolean)`). -/
def queryWords (q : List Char) : List (List Char) :=
  (splitSp (normalize q)).filter (fun w => !w.isEmpty)

/-- Translation of `searchDocs`: empty normalized query short-circuits to
`[]`; otherwise score every document, keep the positive ones, sort by score
descending (stably) and truncate to `limit`. -/
def searchDocs (docs : List SearchDoc) (q : List Char) (limit : Nat) : List SearchHit :=
  if (normalize q).isEmpty then []
  else (sortHits (collectHits docs (normalize q) (queryWords q))).take limit

/-- Score as the specification words it (claim C1): a sum of independent
fixed weights — +40/+10/+15 for full-query containment in label, category,
content, and for each whitespace token of the normalized query +8 for the
label and +2 for the content. -/
def specScore (d : SearchDoc) (q : List Char) : Nat :=
  (if containsSub (normalize d.label) (normalize q) then 40 else 0)
  + (if containsSub (normalize (d.category.getD [])) (normalize q) then 10 else 0)
  + (if containsSub (normalize (d.content.getD [])) (normalize q) then 15 else 0)
  + (((queryWords q).map (fun w =>
        (if containsSub (normalize d.label) w then 8 else 0)
        + (if containsSub (normalize (d.content.getD [])) w then 2 else 0))).sum)

/-- Snippet as the specification words it (claim C4): the window of the
whitespace-collapsed content from `max(0, i-70)` to `min(N, i+L+90)`, with
an ellipsis on each side exactly when clipped on that side. -/
def specSnippet (content qn : List Char) (i : Nat) : List Char :=
  let collapsed := collapseWs content
  let n := collapsed.length
  let start := i - 70
  let stop := min n (i + qn.length + 90)
  (if 0 < start then ['…'] else [])
    ++ (collapsed.drop start).take (stop - start)
    ++ (if stop < n then ['…'] else [])

/-- Loose canonical spacing: every whitespace character is a plain space
and is followed by a non-space character unless it is the last character.
This is the invariant of whitespace-collapsed text. -/
def GoodLoose : List Char → Prop
  | [] => True
  | [c] => isSpaceChar c = true → c = ' '
  | c :: d :: t => (isSpaceChar c = true → c = ' ' ∧ isSpaceChar d = false) ∧ GoodLoose (d :: t)

/-- Canonical spacing of normalized text: every whitespace character is a
plain space followed by a non-space character (so no runs and no trailing
space). -/
def GoodTok : List Char → Prop
  | [] => True
  | [c] => isSpaceChar c = false
  | c :: d :: t => (isSpaceChar c = true → c = ' ' ∧ isSpaceChar d = false) ∧ GoodTok (d :: t)

/-- The head, when present, is not whitespace. -/
def HeadNS : List Char → Prop
  | [] => True
  | c :: _ => isSpaceChar c = false

/-- The concrete document from the specification's worked scenario. -/
def rpcDoc : SearchDoc :=
  { id := "rpc".data, label := "RPC System".data, category := some "Nyte.js".data,
    href := "/docs/nyte/rpc".data,
    content := some "Nyte.js provides a built-in RPC system...".data }

/-- A document whose content matches the query only accent-insensitively
("café" vs the normalized query "cafe"). -/
def cafeDoc : SearchDoc :=
  { id := "cafe".data, label := "Guia".data, category := none, href := "/cafe".data,
    content := some "Ótimo café".data }

/-- A document whose content field is present but empty (falsy in JS). -/
def emptyContentDoc : SearchDoc :=
  { id := "e".data, label := "Empty page".data, category := none, href := "/e".data,
    content := some [] }

end DocSearch

namespace DocSearch

theorem isPrefList_self_append (m b : List Char) : isPrefList m (m ++ b) = true := by
  induction m with
  | nil => rfl
  | cons a as ih => simp [isPrefList, ih]

theorem isPrefList_length {m l : List Char} (h : isPrefList m l = true) :
    m.length ≤ l.length := by
  induction m generalizing l with
  | nil => simp
  | cons a as ih =>
    cases l with
    | nil => simp [isPrefList] at h
    | cons b bs =>
      simp only [isPrefList, Bool.and_eq_true] at h
      simpa using Nat.succ_le_succ (ih h.2)

theorem isPrefList_decomp {m l : List Char} (h : isPrefList m l = true) :
    l = m ++ l.drop m.length := by
  induction m generalizing l with
  | nil => simp
  | cons a as ih =>
    cases l with
    | nil => simp [isPrefList] at h
    | cons b bs =>
      simp only [isPrefList, Bool.and_eq_true, beq_iff_eq] at h
      obtain ⟨rfl, h2⟩ := h
      simpa using ih h2

theorem indexOfSub_some_pref {l m : List Char} {i : Nat}
    (h : indexOfSub l m = some i) : isPrefList m (l.drop i) = true := by
  induction l generalizing i with
  | nil =>
    rw [indexOfSub] at h
    split at h
    next hp => cases h; simpa using hp
    next => simp at h
  | cons c t ih =>
    rw [indexOfSub] at h
    split at h
    next hp => cases h; simpa using hp
    next =>
      rcases Option.map_eq_some'.mp h with ⟨j, hj, rfl⟩
      simpa using ih hj

theorem indexOfSub_decomp {l m : List Char} {i : Nat}
    (h : indexOfSub l m = some i) :
    l = l.take i ++ m ++ l.drop (i + m.length) := by
  have hp := indexOfSub_some_pref h
  have h1 : l.drop i = m ++ (l.drop i).drop m.length := isPrefList_decomp hp
  have h2 : (l.drop i).drop m.length = l.drop (i + m.length) := by
    rw [List.drop_drop, Nat.add_comm]
  calc l = l.take i ++ l.drop i := (List.take_append_drop i l).symm
    _ = l.take i ++ (m ++ l.drop (i + m.length)) := by rw [h1, h2]
    _ = l.take i ++ m ++ l.drop (i + m.length) := by rw [List.append_assoc]

theorem indexOfSub_bound {l m : List Char} {i : Nat}
    (h : indexOfSub l m = some i) : i + m.length ≤ l.length := by
  induction l generalizing i with
  | nil =>
    rw [indexOfSub] at h
    split at h
    next hp => cases h; simpa using isPrefList_length hp
    next => simp at h
  | cons c t ih =>
    rw [indexOfSub] at h
    split at h
    next hp => cases h; simpa using isPrefList_length hp
    next =>
      rcases Option.map_eq_some'.mp h with ⟨j, hj, rfl⟩
      have := ih hj
      simp only [List.length_cons]
      omega

theorem containsSub_parts (a m b : List Char) : containsSub (a ++ (m ++ b)) m = true := by
  induction a with
  | nil =>
    simp only [containsSub, List.nil_append]
    rw [indexOfSub.eq_def]
    simp [isPrefList_self_append]
  | cons c t ih =>
    simp only [containsSub, List.cons_append]
    rw [indexOfSub.eq_def]
    split
    · rfl
    · rcases Option.isSome_iff_exists.mp (by simpa [containsSub] using ih) with ⟨j, hj⟩
      simp [hj]

theorem containsSub_nil_needle (l : List Char) : containsSub l [] = true := by
  simp only [containsSub]
  rw [indexOfSub.eq_def]
  simp [isPrefList]

theorem insertHit_perm (h : SearchHit) (l : List SearchHit) :
    List.Perm (insertHit h l) (h :: l) := by
  induction l with
  | nil => exact List.Perm.refl _
  | cons x xs ih =>
    rw [insertHit]
    split
    · exact List.Perm.refl _
    · exact List.Perm.trans (List.Perm.cons x ih) (List.Perm.swap h x xs)

theorem sortHits_perm (l : List SearchHit) : List.Perm (sortHits l) l := by
  induction l with
  | nil => exact List.Perm.refl _
  | cons x xs ih =>
    show List.Perm (insertHit x (sortHits xs)) _
    exact List.Perm.trans (insertHit_perm x (sortHits xs)) (List.Perm.cons x ih)

theorem insertHit_pairwise {l : List SearchHit} (h : SearchHit)
    (hl : l.Pairwise (fun a b => b.score ≤ a.score)) :
    (insertHit h l).Pairwise (fun a b => b.score ≤ a.score) := by
  induction l with
  | nil => simp [insertHit]
  | cons x xs ih =>
    rw [insertHit]
    rcases List.pairwise_cons.mp hl with ⟨hx, hxs⟩
    split
    next hcond =>
      refine List.pairwise_cons.mpr ⟨?_, hl⟩
      intro y hy
      rcases List.mem_cons.mp hy with rfl | hy
      · exact hcond
      · exact le_trans (hx y hy) hcond
    next hcond =>
      push_neg at hcond
      refine List.pairwise_cons.mpr ⟨?_, ih hxs⟩
      intro y hy
      rcases List.mem_cons.mp ((insertHit_perm h xs).mem_iff.mp hy) with rfl | hmem
      · exact le_of_lt hcond
      · exact hx y hmem

theorem sortHits_pairwise (l : List SearchHit) :
    (sortHits l).Pairwise (fun a b => b.score ≤ a.score) := by
  induction l with
  | nil => simp [sortHits]
  | cons x xs ih =>
    show (insertHit x (sortHits xs)).Pairwise _
    exact insertHit_pairwise x ih

theorem insertHit_filter_eq {s : Nat} {h : SearchHit} (hs : h.score = s)
    (l : List SearchHit) :
    (insertHit h l).filter (fun x => x.score == s) =
      h :: l.filter (fun x => x.score == s) := by
  induction l with
  | nil => simp [insertHit, List.filter, hs]
  | cons x xs ih =>
    rw [insertHit]
    split
    next hcond => simp [List.filter_cons, hs]
    next hcond =>
      push_neg at hcond
      have hx : x.score ≠ s := by omega
      simp only [List.filter_cons]
      simp [hx, ih]

theorem insertHit_filter_ne {s : Nat} {h : SearchHit} (hs : h.score ≠ s)
    (l : List SearchHit) :
    (insertHit h l).filter (fun x => x.score == s) =
      l.filter (fun x => x.score == s) := by
  induction l with
  | nil => simp [insertHit, List.filter_cons, hs]
  | cons x xs ih =>
    rw [insertHit]
    split
    next hcond => simp [List.filter_cons, hs]
    next hcond =>
      simp only [List.filter_cons]
      simp [ih]

theorem sortHits_filter (l : List SearchHit) (s : Nat) :
    (sortHits l).filter (fun x => x.score == s) = l.filter (fun x => x.score == s) := by
  induction l with
  | nil => rfl
  | cons x xs ih =>
    show (insertHit x (sortHits xs)).filter _ = _
    by_cases hx : x.score = s
    · rw [insertHit_filter_eq hx, ih, List.filter_cons]
      simp [hx]
    · rw [insertHit_filter_ne hx, ih, List.filter_cons]
      simp [hx]

/-- C2: for every documents collection, query and limit, the sequence
returned by `searchDocs` is sorted by score in descending order (every
hit's score is at least the score of every later hit, in particular of the
hit directly after it) and its length is at most `limit`. -/
theorem C2_sorted_and_capped (docs : List SearchDoc) (q : List Char) (limit : Nat) :
    (searchDocs docs q limit).Pairwise (fun a b => b.score ≤ a.score) ∧
      (searchDocs docs q limit).length ≤ limit := by
  unfold searchDocs
  split
  · simp
  · constructor
    · exact (sortHits_pairwise _).sublist (List.take_sublist _ _)
    · rw [List.length_take]
      exact Nat.min_le_left _ _

/-- C9: tie-breaking is stable on input order: for any fixed score `s`, the
hits of score `s` returned by `searchDocs` form an initial segment of the
hits of score `s` collected in document order, so two equal-score hits of
the output appear in the same relative order as their source documents. -/
theorem C9_stable_ties (docs : List SearchDoc) (q : List Char) (limit : Nat) (s : Nat) :
    ∃ t, (collectHits docs (normalize q) (queryWords q)).filter (fun h => h.score == s)
        = (searchDocs docs q limit).filter (fun h => h.score == s) ++ t := by
  unfold searchDocs
  split
  · exact ⟨(collectHits docs (normalize q) (queryWords q)).filter (fun h => h.score == s),
      by simp⟩
  · refine ⟨((sortHits (collectHits docs (normalize q) (queryWords q))).drop limit).filter
      (fun h => h.score == s), ?_⟩
    rw [← List.filter_append, List.take_append_drop]
    exact (sortHits_filter _ s).symm

end DocSearch

namespace DocSearch

theorem foldl_score_eq (a b : List Char) (ws : List (List Char)) (s : Nat) :
    ws.foldl (fun acc w => acc + (if containsSub a w then 8 else 0)
        + (if containsSub b w then 2 else 0)) s
      = s + (ws.map (fun w => (if containsSub a w then 8 else 0)
        + (if containsSub b w then 2 else 0))).sum := by
  induction ws generalizing s with
  | nil => simp
  | cons w t ih =>
    simp only [List.foldl_cons, List.map_cons, List.sum_cons, ih]
    omega

theorem scoreDoc_eq_specScore (d : SearchDoc) (q : List Char) :
    scoreDoc (normalize q) (queryWords q) d = specScore d q := by
  unfold scoreDoc specScore
  rw [foldl_score_eq]

/-- C1: the score of every collected hit is the sum of the fixed weights
exactly as written in the specification (+40/+10/+15 for full-query
containment in label/category/content and +8/+2 per query token in
label/content), documents whose final score is zero — with natural-number
weights the only way to be `<= 0` — are excluded entirely, and every
returned hit has positive score. -/
theorem C1_score_weights (docs : List SearchDoc) (q : List Char) (limit : Nat) :
    (collectHits docs (normalize q) (queryWords q)).map (fun h => (h.id, h.score))
      = (docs.filter (fun d => decide (0 < specScore d q))).map
          (fun d => (d.id, specScore d q))
    ∧ (searchDocs docs q limit).all (fun h => decide (0 < h.score)) = true := by
  constructor
  · induction docs with
    | nil => rfl
    | cons d ds ih =>
      show (List.filterMap _ (d :: ds)).map _ = _
      rw [List.filterMap_cons, List.filter_cons]
      by_cases hd : scoreDoc (normalize q) (queryWords q) d = 0
      · have hs : specScore d q = 0 := by rw [← scoreDoc_eq_specScore]; exact hd
        rw [if_neg (by simp [hs])]
        simp only [mkHit, if_pos hd]
        exact ih
      · have hsp := scoreDoc_eq_specScore d q
        have hs : 0 < specScore d q := by omega
        rw [if_pos (by simpa using hs)]
        simp only [mkHit, if_neg hd, List.map_cons]
        unfold collectHits at ih
        rw [ih, hsp]
  · simp only [List.all_eq_true]
    intro h hmem
    unfold searchDocs at hmem
    split at hmem
    · simp at hmem
    · have h1 : h ∈ sortHits (collectHits docs (normalize q) (queryWords q)) :=
        List.mem_of_mem_take hmem
      have h2 : h ∈ collectHits docs (normalize q) (queryWords q) :=
        (sortHits_perm _).mem_iff.mp h1
      rcases List.mem_filterMap.mp h2 with ⟨d, hd, hmk⟩
      unfold mkHit at hmk
      split at hmk
      · cases hmk
      next hne =>
        cases hmk
        simpa using Nat.pos_of_ne_zero hne

theorem space_char_cases {c : Char} (h : isSpaceChar c = true) :
    c = ' ' ∨ c = '\t' ∨ c = '\n' ∨ c = '\r' ∨ c = Char.ofNat 11 ∨
      c = Char.ofNat 12 ∨ c = Char.ofNat 160 := by
  simp only [isSpaceChar, Bool.or_eq_true, beq_iff_eq] at h
  tauto

theorem jsLower_space {c : Char} (h : isSpaceChar c = true) : jsLower c = c := by
  rcases space_char_cases h with rfl|rfl|rfl|rfl|rfl|rfl|rfl <;> decide

theorem nfdStrip_space {c : Char} (h : isSpaceChar c = true) : nfdStrip c = some c := by
  rcases space_char_cases h with rfl|rfl|rfl|rfl|rfl|rfl|rfl <;> decide

theorem map_jsLower_space {q : List Char} (h : ∀ c ∈ q, isSpaceChar c = true) :
    q.map jsLower = q := by
  induction q with
  | nil => rfl
  | cons c cs ih =>
    simp [jsLower_space (h c (by simp)), ih (fun x hx => h x (by simp [hx]))]

theorem filterMap_nfdStrip_space {q : List Char} (h : ∀ c ∈ q, isSpaceChar c = true) :
    q.filterMap nfdStrip = q := by
  induction q with
  | nil => rfl
  | cons c cs ih =>
    simp [List.filterMap_cons, nfdStrip_space (h c (by simp)),
      ih (fun x hx => h x (by simp [hx]))]

theorem collapse_all_space_true {l : List Char} (h : ∀ c ∈ l, isSpaceChar c = true) :
    collapseWsAux true l = [] := by
  induction l with
  | nil => rfl
  | cons c cs ih =>
    have hc := h c (by simp)
    have ih' := ih (fun x hx => h x (by simp [hx]))
    simp [collapseWsAux, hc, ih']

theorem trim_collapse_all_space {l : List Char} (h : ∀ c ∈ l, isSpaceChar c = true) :
    trimSpaces (collapseWsAux false l) = [] := by
  cases l with
  | nil => rfl
  | cons c cs =>
    have hc := h c (by simp)
    have h1 : collapseWsAux false (c :: cs) = [' '] := by
      simp [collapseWsAux, hc,
        collapse_all_space_true (l := cs) (fun x hx => h x (List.mem_cons_of_mem c hx))]
    rw [h1]
    decide

theorem normalize_all_space {q : List Char} (h : ∀ c ∈ q, isSpaceChar c = true) :
    normalize q = [] := by
  unfold normalize collapseWs
  rw [map_jsLower_space h, filterMap_nfdStrip_space h]
  exact trim_collapse_all_space h

/-- C3: for every non-empty documents collection and every limit, a query
that is empty or consists only of whitespace normalizes to the empty string
and `searchDocs` returns the empty sequence. -/
theorem C3_blank_query (docs : List SearchDoc) (q : List Char) (limit : Nat)
    (_hdocs : docs ≠ []) (hq : ∀ c ∈ q, isSpaceChar c = true) :
    searchDocs docs q limit = [] := by
  unfold searchDocs
  rw [normalize_all_space hq]
  rfl

/-- Witness for C3 at the spec's concrete scenario: three spaces as query. -/
theorem C3_blank_query_witness :
    ([rpcDoc] ≠ ([] : List SearchDoc)) ∧ (∀ c ∈ "   ".data, isSpaceChar c = true) ∧
      searchDocs [rpcDoc] "   ".data 12 = [] :=
  ⟨by decide, by decide, C3_blank_query [rpcDoc] "   ".data 12 (by decide) (by decide)⟩

/-- C8: determinism — the engine is modelled as a pure function of the
document collection, the query and the limit, so two calls on equal inputs
return equal hit sequences (and the input collection, being immutable data,
is unchanged). -/
theorem C8_deterministic (docs₁ docs₂ : List SearchDoc) (q₁ q₂ : List Char)
    (n₁ n₂ : Nat) (hd : docs₁ = docs₂) (hq : q₁ = q₂) (hn : n₁ = n₂) :
    searchDocs docs₁ q₁ n₁ = searchDocs docs₂ q₂ n₂ := by
  rw [hd, hq, hn]

/-- Witness for C8: two identical concrete calls agree. -/
theorem C8_deterministic_witness :
    ([rpcDoc] = [rpcDoc]) ∧
      searchDocs [rpcDoc] "rpc".data 12 = searchDocs [rpcDoc] "rpc".data 12 :=
  ⟨rfl, C8_deterministic [rpcDoc] [rpcDoc] "rpc".data "rpc".data 12 12 rfl rfl rfl⟩

theorem mkHit_empty_content (qn : List Char) (ws : List (List Char)) (d : SearchDoc)
    (h : d.content = some []) :
    mkHit qn ws d = mkHit qn ws { d with content := none } := by
  simp [mkHit, scoreDoc, h]

/-- C10: a document whose content field is the empty string produces, for
every query and limit, exactly the same search output as the same document
with content absent. -/
theorem C10_empty_content (pre suf : List SearchDoc) (d : SearchDoc)
    (q : List Char) (limit : Nat) (h : d.content = some []) :
    searchDocs (pre ++ d :: suf) q limit
      = searchDocs (pre ++ { d with content := none } :: suf) q limit := by
  have hc : collectHits (pre ++ d :: suf) (normalize q) (queryWords q)
      = collectHits (pre ++ { d with content := none } :: suf) (normalize q)
          (queryWords q) := by
    unfold collectHits
    rw [List.filterMap_append, List.filterMap_append, List.filterMap_cons,
      List.filterMap_cons, mkHit_empty_content _ _ _ h]
  unfold searchDocs
  rw [hc]

/-- Witness for C10 at a concrete document with empty-string content. -/
theorem C10_empty_content_witness :
    emptyContentDoc.content = some [] ∧
      searchDocs [emptyContentDoc] "empty".data 5
        = searchDocs [{ emptyContentDoc with content := none }] "empty".data 5 :=
  ⟨rfl, C10_empty_content [] [] emptyContentDoc "empty".data 5 rfl⟩

end DocSearch

namespace DocSearch

/-- C5: a hit carries no snippet when the document has no content, and also
when the normalized query is not found verbatim (lower-cased, whitespace-
collapsed, accents kept) in the content — even if the accent-insensitive
containment check of the scoring step succeeded. -/
theorem C5_no_snippet (qn : List Char) (ws : List (List Char)) (d : SearchDoc)
    (h : SearchHit) (hmk : mkHit qn ws d = some h)
    (hc : d.content = none ∨ ∃ c, d.content = some c ∧
            indexOfSub ((collapseWs c).map jsLower) qn = none) :
    h.snippet = none := by
  unfold mkHit at hmk
  split at hmk
  · cases hmk
  · cases hmk
    rcases hc with hnone | ⟨c, hcc, hidx⟩
    · simp [hnone]
    · rw [hcc]
      simp only
      by_cases hce : c.isEmpty
      · simp [hce]
      · simp only [hce, if_false]
        unfold makeSnippet
        cases h0 : indexOfSub (normalize (collapseWs c)) qn with
        | none => simp [h0]
        | some k => simp [h0, hidx]

/-- Witness for C5: content "Ótimo café" scores against the query "cafe"
through accent-insensitive matching, yet the hit has no snippet. -/
theorem C5_no_snippet_witness :
    cafeDoc.content = some "Ótimo café".data ∧
      indexOfSub ((collapseWs "Ótimo café".data).map jsLower)
        (normalize "cafe".data) = none ∧
      ({ id := "cafe".data, label := "Guia".data, category := none,
         href := "/cafe".data, score := 17, snippet := none } : SearchHit).snippet
        = none :=
  ⟨rfl, by decide,
    C5_no_snippet (normalize "cafe".data) (queryWords "cafe".data) cafeDoc
      { id := "cafe".data, label := "Guia".data, category := none,
        href := "/cafe".data, score := 17, snippet := none }
      (by decide) (Or.inr ⟨"Ótimo café".data, rfl, by decide⟩)⟩

/-- C6: a document whose label contains the query case- and accent-
insensitively scores at least 40, hence appears among the returned hits
whenever the limit is at least the number of surviving hits. -/
theorem C6_label_match_included (docs : List SearchDoc) (q : List Char) (limit : Nat)
    (d : SearchDoc) (hmem : d ∈ docs)
    (hlabel : containsSub (normalize d.label) (normalize q) = true)
    (hq : (normalize q).isEmpty = false)
    (hlim : (collectHits docs (normalize q) (queryWords q)).length ≤ limit) :
    ∃ h ∈ searchDocs docs q limit,
      h.id = d.id ∧ h.label = d.label ∧ h.href = d.href ∧ 40 ≤ h.score := by
  have hscore : 40 ≤ scoreDoc (normalize q) (queryWords q) d := by
    unfold scoreDoc
    rw [foldl_score_eq, hlabel]
    simp only [if_true, if_pos trivial]
    exact le_trans (le_trans (Nat.le_add_right 40 _) (Nat.le_add_right _ _))
      (Nat.le_add_right _ _)
  have hne : scoreDoc (normalize q) (queryWords q) d ≠ 0 := by omega
  refine ⟨{ id := d.id, label := d.label, category := d.category, href := d.href,
            score := scoreDoc (normalize q) (queryWords q) d,
            snippet :=
              match d.content with
              | some c => if c.isEmpty then none else makeSnippet c (normalize q)
              | none => none }, ?_, rfl, rfl, rfl, hscore⟩
  have hmk : mkHit (normalize q) (queryWords q) d
      = some { id := d.id, label := d.label, category := d.category, href := d.href,
               score := scoreDoc (normalize q) (queryWords q) d,
               snippet :=
                 match d.content with
                 | some c => if c.isEmpty then none else makeSnippet c (normalize q)
                 | none => none } := by
    unfold mkHit
    rw [if_neg hne]
  have hin := List.mem_filterMap.mpr ⟨d, hmem, hmk⟩
  have hsorted := (sortHits_perm (collectHits docs (normalize q) (queryWords q))).mem_iff.mpr hin
  have hlen : (sortHits (collectHits docs (normalize q) (queryWords q))).length ≤ limit := by
    rw [(sortHits_perm _).length_eq]
    exact hlim
  unfold searchDocs
  rw [hq]
  simp only [Bool.false_eq_true, if_false]
  rw [List.take_of_length_le hlen]
  exact hsorted

/-- Witness for C6: the worked document is returned for the query "RPC". -/
theorem C6_label_match_included_witness :
    (rpcDoc ∈ [rpcDoc]) ∧
      containsSub (normalize rpcDoc.label) (normalize "RPC".data) = true ∧
      (normalize "RPC".data).isEmpty = false ∧
      (collectHits [rpcDoc] (normalize "RPC".data) (queryWords "RPC".data)).length ≤ 12 ∧
      ∃ h ∈ searchDocs [rpcDoc] "RPC".data 12,
        h.id = rpcDoc.id ∧ h.label = rpcDoc.label ∧ h.href = rpcDoc.href ∧ 40 ≤ h.score :=
  ⟨by decide, by decide, by decide, by decide,
    C6_label_match_included [rpcDoc] "RPC".data 12 rpcDoc (by decide) (by decide)
      (by decide) (by decide)⟩

/-- C7: the specification's concrete scenario — one document, query "RPC" —
returns exactly one hit with score 65 (40 label + 10 never fires for the
category + 15 content + 8 token in label + 2 token in content) and a
present snippet containing "RPC". -/
theorem C7_concrete_scenario :
    searchDocs [rpcDoc] "RPC".data 12
      = [{ id := "rpc".data, label := "RPC System".data,
           category := some "Nyte.js".data, href := "/docs/nyte/rpc".data,
           score := 65,
           snippet := some "Nyte.js provides a built-in RPC system...".data }]
    ∧ containsSub "Nyte.js provides a built-in RPC system...".data "RPC".data
        = true := by
  constructor
  · decide
  · decide

end DocSearch

namespace DocSearch

theorem mem_collapseWsAux {c : Char} : ∀ {flag : Bool} {l : List Char},
    c ∈ collapseWsAux flag l → c = ' ' ∨ (c ∈ l ∧ isSpaceChar c = false) := by
  intro flag l
  induction l generalizing flag with
  | nil => intro h; simp [collapseWsAux] at h
  | cons d t ih =>
    intro h
    rw [collapseWsAux] at h
    split at h
    · split at h
      · rcases ih h with h1 | ⟨h1, h2⟩
        · exact Or.inl h1
        · exact Or.inr ⟨List.mem_cons_of_mem d h1, h2⟩
      · rcases List.mem_cons.mp h with rfl | h1
        · exact Or.inl rfl
        · rcases ih h1 with h2 | ⟨h2, h3⟩
          · exact Or.inl h2
          · exact Or.inr ⟨List.mem_cons_of_mem d h2, h3⟩
    next hd =>
      have hd' : isSpaceChar d = false := by
        cases hx : isSpaceChar d
        · rfl
        · exact absurd hx hd
      rcases List.mem_cons.mp h with rfl | h1
      · exact Or.inr ⟨List.mem_cons_self c t, hd'⟩
      · rcases ih h1 with h2 | ⟨h2, h3⟩
        · exact Or.inl h2
        · exact Or.inr ⟨List.mem_cons_of_mem d h2, h3⟩

theorem mem_dropWhile {c : Char} {p : Char → Bool} :
    ∀ {l : List Char}, c ∈ l.dropWhile p → c ∈ l := by
  intro l
  induction l with
  | nil => intro h; simp at h
  | cons d t ih =>
    intro h
    rw [List.dropWhile_cons] at h
    split at h
    · exact List.mem_cons_of_mem d (ih h)
    · exact h

theorem mem_trimSpaces {c : Char} {l : List Char} (h : c ∈ trimSpaces l) : c ∈ l := by
  unfold trimSpaces at h
  rw [List.mem_reverse] at h
  have h1 := mem_dropWhile h
  rw [List.mem_reverse] at h1
  exact mem_dropWhile h1

theorem baseChar_not_combining {d : Char} (hd : ¬(768 ≤ d.toNat ∧ d.toNat ≤ 879)) :
    ¬(768 ≤ (baseChar d).toNat ∧ (baseChar d).toNat ≤ 879) := by
  unfold baseChar
  cases hf : accentTable.find? (fun p => p.1 == d) with
  | none => exact hd
  | some p =>
    have hp : p ∈ accentTable := List.mem_of_find?_eq_some hf
    have hall : accentTable.all
        (fun r => !(decide (768 ≤ r.2.toNat ∧ r.2.toNat ≤ 879))) = true := by decide
    have h2 := List.all_eq_true.mp hall p hp
    simp only [Bool.not_eq_eq_eq_not, Bool.not_true, decide_eq_false_iff_not] at h2
    exact h2

theorem baseChar_idem (d : Char) : baseChar (baseChar d) = baseChar d := by
  cases hf : accentTable.find? (fun p => p.1 == d) with
  | none =>
    have h1 : baseChar d = d := by unfold baseChar; rw [hf]
    rw [h1]
    exact h1
  | some p =>
    have h1 : baseChar d = p.2 := by unfold baseChar; rw [hf]
    have hp : p ∈ accentTable := List.mem_of_find?_eq_some hf
    have hall : accentTable.all
        (fun r => (accentTable.find? (fun s => s.1 == r.2)).isNone) = true := by decide
    have h2 := List.all_eq_true.mp hall p hp
    have h3 : accentTable.find? (fun s => s.1 == p.2) = none := by
      simpa [Option.isNone_iff_eq_none] using h2
    rw [h1]
    unfold baseChar
    rw [h3]

theorem nfdStrip_image {d c : Char} (h : nfdStrip d = some c) : nfdStrip c = some c := by
  unfold nfdStrip at h
  split at h
  · cases h
  next hcomb =>
    cases h
    unfold nfdStrip
    rw [if_neg (baseChar_not_combining hcomb), baseChar_idem]

theorem normalize_char_fixed {t : List Char} {c : Char} (h : c ∈ normalize t) :
    nfdStrip c = some c := by
  unfold normalize at h
  have h1 := mem_trimSpaces h
  rcases mem_collapseWsAux (by simpa [collapseWs] using h1) with rfl | ⟨h2, _⟩
  · decide
  · rcases List.mem_filterMap.mp h2 with ⟨d, _, hds⟩
    exact nfdStrip_image hds

theorem filterMap_nfdStrip_fixed {l : List Char} (h : ∀ c ∈ l, nfdStrip c = some c) :
    l.filterMap nfdStrip = l := by
  induction l with
  | nil => rfl
  | cons c cs ih =>
    rw [List.filterMap_cons, h c (List.mem_cons_self c cs),
      ih (fun x hx => h x (List.mem_cons_of_mem c hx))]

theorem headNS_collapse_true : ∀ (l : List Char), HeadNS (collapseWsAux true l) := by
  intro l
  induction l with
  | nil => trivial
  | cons c t ih =>
    rw [collapseWsAux]
    by_cases hc : isSpaceChar c = true
    · rw [if_pos hc]
      simpa using ih
    · rw [if_neg hc]
      cases hx : isSpaceChar c
      · exact hx
      · exact absurd hx hc

theorem goodLoose_collapse : ∀ (l : List Char) (flag : Bool),
    GoodLoose (collapseWsAux flag l) := by
  intro l
  induction l with
  | nil => intro flag; trivial
  | cons c t ih =>
    intro flag
    rw [collapseWsAux]
    by_cases hc : isSpaceChar c = true
    · rw [if_pos hc]
      cases flag
      · simp only [Bool.false_eq_true, if_false]
        have h1 := headNS_collapse_true t
        have h2 := ih true
        cases hout : collapseWsAux true t with
        | nil => exact fun _ => rfl
        | cons d t2 =>
          rw [hout] at h1 h2
          exact ⟨fun _ => ⟨rfl, h1⟩, h2⟩
      · simpa using ih true
    · rw [if_neg hc]
      have hc' : isSpaceChar c = false := by
        cases hx : isSpaceChar c
        · rfl
        · exact absurd hx hc
      have h2 := ih false
      cases hout : collapseWsAux false t with
      | nil =>
        intro hx
        rw [hc'] at hx
        cases hx
      | cons d t2 =>
        rw [hout] at h2
        refine ⟨?_, h2⟩
        intro hx
        rw [hc'] at hx
        cases hx

theorem goodLoose_tail {c : Char} {t : List Char} (h : GoodLoose (c :: t)) :
    GoodLoose t := by
  cases t with
  | nil => trivial
  | cons d t2 => exact h.2

theorem goodLoose_dropWhile : ∀ {l : List Char}, GoodLoose l →
    GoodLoose (l.dropWhile isSpaceChar) := by
  intro l
  induction l with
  | nil => intro h; exact h
  | cons c t ih =>
    intro h
    rw [List.dropWhile_cons]
    split
    · exact ih (goodLoose_tail h)
    · exact h

theorem headNS_dropWhile (l : List Char) : HeadNS (l.dropWhile isSpaceChar) := by
  induction l with
  | nil => trivial
  | cons c t ih =>
    rw [List.dropWhile_cons]
    split
    · exact ih
    next hc =>
      cases hx : isSpaceChar c
      · exact hx
      · exact absurd hx hc

theorem dropWhile_decomp (p : Char → Bool) :
    ∀ (l : List Char), ∃ u, l = u ++ l.dropWhile p := by
  intro l
  induction l with
  | nil => exact ⟨[], rfl⟩
  | cons c t ih =>
    rw [List.dropWhile_cons]
    split
    · obtain ⟨u, hu⟩ := ih
      exact ⟨c :: u, by rw [List.cons_append, ← hu]⟩
    · exact ⟨[], rfl⟩

theorem goodLoose_append_left : ∀ {l m : List Char}, GoodLoose (l ++ m) → GoodLoose l := by
  intro l
  induction l with
  | nil => intro m _; trivial
  | cons c t ih =>
    intro m h
    cases t with
    | nil =>
      cases m with
      | nil => simpa using h
      | cons d t2 =>
        obtain ⟨hp, _⟩ := h
        exact fun hc => (hp hc).1
    | cons d t2 =>
      obtain ⟨hp, h2⟩ := h
      exact ⟨hp, ih h2⟩

theorem headNS_append_left : ∀ {l m : List Char}, HeadNS (l ++ m) → l ≠ [] → HeadNS l := by
  intro l m h hne
  cases l with
  | nil => exact absurd rfl hne
  | cons c t => exact h

theorem goodTok_of_loose : ∀ (l : List Char), GoodLoose l → HeadNS l.reverse → GoodTok l := by
  intro l
  induction l with
  | nil => intro _ _; trivial
  | cons c t ih =>
    intro hg hr
    cases t with
    | nil => simpa [GoodTok, HeadNS] using hr
    | cons d t2 =>
      obtain ⟨hp, hg2⟩ := hg
      refine ⟨hp, ih hg2 ?_⟩
      have hrw : (c :: d :: t2).reverse = (d :: t2).reverse ++ [c] := by simp
      rw [hrw] at hr
      exact headNS_append_left hr (by simp)

theorem normalize_canonical (q : List Char) :
    GoodTok (normalize q) ∧ HeadNS (normalize q) ∧ HeadNS (normalize q).reverse := by
  unfold normalize trimSpaces collapseWs
  set x := ((q.map jsLower).filterMap nfdStrip) with hx
  set m := collapseWsAux false x with hm
  set l1 := m.dropWhile isSpaceChar with hl1
  set d2 := l1.reverse.dropWhile isSpaceChar with hd2
  have hGL1 : GoodLoose l1 := goodLoose_dropWhile (goodLoose_collapse x false)
  have hH1 : HeadNS l1 := headNS_dropWhile m
  have hrevrev : d2.reverse.reverse = d2 := by simp
  have hHrev : HeadNS d2.reverse.reverse := by
    rw [hrevrev]
    exact headNS_dropWhile l1.reverse
  obtain ⟨u, hu⟩ := dropWhile_decomp isSpaceChar l1.reverse
  have hsplit : l1 = d2.reverse ++ u.reverse := by
    have := congrArg List.reverse hu
    simpa using this
  have hGL2 : GoodLoose d2.reverse := goodLoose_append_left (hsplit ▸ hGL1)
  have hH2 : HeadNS d2.reverse := by
    by_cases hdr : d2.reverse = []
    · rw [hdr]; trivial
    · refine headNS_append_left (m := u.reverse) ?_ hdr
      rw [← hsplit]
      exact hH1
  exact ⟨goodTok_of_loose d2.reverse hGL2 hHrev, hH2, by rw [hrevrev]; exact headNS_dropWhile l1.reverse⟩

end DocSearch

namespace DocSearch

theorem collapseWsAux_nonspace {c : Char} (hc : isSpaceChar c = false) (x : List Char) :
    ∀ flag, collapseWsAux flag (c :: x) = c :: collapseWsAux false x := by
  intro flag
  rw [collapseWsAux, hc]
  simp

theorem collapseWsAux_space {c : Char} (hc : isSpaceChar c = true) (x : List Char) :
    collapseWsAux false (c :: x) = ' ' :: collapseWsAux true x := by
  rw [collapseWsAux, hc]
  simp

theorem collapseWsAux_space_true {c : Char} (hc : isSpaceChar c = true) (x : List Char) :
    collapseWsAux true (c :: x) = collapseWsAux true x := by
  rw [collapseWsAux, hc]
  simp

theorem collapse_tok : ∀ (l : List Char), GoodTok l →
    ∀ b, collapseWsAux false (l ++ b) = l ++ collapseWsAux false b := by
  intro l
  induction l with
  | nil => intro _ b; rfl
  | cons c t ih =>
    intro hg b
    cases t with
    | nil =>
      have hc : isSpaceChar c = false := hg
      simp only [List.cons_append, List.nil_append]
      exact collapseWsAux_nonspace hc b false
    | cons d t2 =>
      obtain ⟨hp, hg2⟩ := hg
      simp only [List.cons_append]
      by_cases hc : isSpaceChar c = true
      · obtain ⟨hceq, hd⟩ := hp hc
        subst hceq
        rw [collapseWsAux_space (by decide), collapseWsAux_nonspace hd _ true]
        have hih := ih hg2 b
        rw [List.cons_append, collapseWsAux_nonspace hd _ false] at hih
        injection hih with h1 h2
        rw [h2]
        rfl
      · have hc' : isSpaceChar c = false := by
          cases hx : isSpaceChar c
          · rfl
          · exact absurd hx hc
        rw [collapseWsAux_nonspace hc' _ false]
        have hih := ih hg2 b
        rw [List.cons_append] at hih
        rw [hih]
        rfl

theorem collapse_pres {m : List Char} (hg : GoodTok m) (hh : HeadNS m) (hne : m ≠ []) :
    ∀ (a : List Char) (flag : Bool) (b : List Char), ∃ u v,
      collapseWsAux flag (a ++ (m ++ b)) = u ++ (m ++ v) := by
  intro a
  induction a with
  | nil =>
    intro flag b
    cases hm : m with
    | nil => exact absurd hm hne
    | cons c t =>
      have hc : isSpaceChar c = false := by rw [hm] at hh; exact hh
      refine ⟨[], collapseWsAux false b, ?_⟩
      rw [List.nil_append, List.nil_append]
      calc collapseWsAux flag ((c :: t) ++ b)
          = collapseWsAux false ((c :: t) ++ b) := by
            rw [List.cons_append, collapseWsAux_nonspace hc _ flag,
              collapseWsAux_nonspace hc _ false]
        _ = (c :: t) ++ collapseWsAux false b := collapse_tok (c :: t) (hm ▸ hg) b
  | cons c a' ih =>
    intro flag b
    simp only [List.cons_append]
    by_cases hc : isSpaceChar c = true
    · cases flag
      · obtain ⟨u, v, huv⟩ := ih true b
        refine ⟨' ' :: u, v, ?_⟩
        rw [collapseWsAux_space hc, huv, List.cons_append]
      · obtain ⟨u, v, huv⟩ := ih true b
        refine ⟨u, v, ?_⟩
        rw [collapseWsAux_space_true hc, huv]
    · have hc' : isSpaceChar c = false := by
        cases hx : isSpaceChar c
        · rfl
        · exact absurd hx hc
      obtain ⟨u, v, huv⟩ := ih false b
      refine ⟨c :: u, v, ?_⟩
      rw [collapseWsAux_nonspace hc' _ flag, huv, List.cons_append]

theorem dropWhile_pres {m : List Char} (hh : HeadNS m) (hne : m ≠ []) :
    ∀ (u v : List Char), ∃ w,
      (u ++ (m ++ v)).dropWhile isSpaceChar = w ++ (m ++ v) := by
  intro u v
  induction u with
  | nil =>
    cases hm : m with
    | nil => exact absurd hm hne
    | cons c t =>
      have hc : isSpaceChar c = false := by rw [hm] at hh; exact hh
      refine ⟨[], ?_⟩
      rw [List.nil_append, List.cons_append, List.dropWhile_cons, hc]
      simp
  | cons c u' ih =>
    obtain ⟨w, hw⟩ := ih
    rw [List.cons_append, List.dropWhile_cons]
    by_cases hc : isSpaceChar c = true
    · rw [hc]
      exact ⟨w, by simpa using hw⟩
    · have hc' : isSpaceChar c = false := by
        cases hx : isSpaceChar c
        · rfl
        · exact absurd hx hc
      rw [hc']
      exact ⟨c :: u', by simp⟩

theorem trim_pres {m : List Char} (hh : HeadNS m) (hl : HeadNS m.reverse) (hne : m ≠ [])
    (u v : List Char) :
    ∃ a b, trimSpaces (u ++ (m ++ v)) = a ++ (m ++ b) := by
  obtain ⟨w, hw⟩ := dropWhile_pres hh hne u v
  unfold trimSpaces
  rw [hw]
  have hrev : (w ++ (m ++ v)).reverse = v.reverse ++ (m.reverse ++ w.reverse) := by
    simp [List.reverse_append, List.append_assoc]
  rw [hrev]
  have hner : m.reverse ≠ [] := by simpa using hne
  obtain ⟨w2, hw2⟩ := dropWhile_pres hl hner v.reverse w.reverse
  rw [hw2]
  exact ⟨w, w2.reverse, by simp [List.reverse_append, List.append_assoc]⟩

theorem contains_normalize_of_lower {t q : List Char}
    (h : containsSub (t.map jsLower) (normalize q) = true) :
    containsSub (normalize t) (normalize q) = true := by
  by_cases hq : normalize q = []
  · rw [hq]
    exact containsSub_nil_needle _
  · rcases Option.isSome_iff_exists.mp (by simpa [containsSub] using h) with ⟨i, hi⟩
    have hdec := indexOfSub_decomp hi
    obtain ⟨hGT, hHN, hHR⟩ := normalize_canonical q
    have hstrip : (t.map jsLower).filterMap nfdStrip
        = ((t.map jsLower).take i).filterMap nfdStrip
          ++ (normalize q
            ++ ((t.map jsLower).drop (i + (normalize q).length)).filterMap nfdStrip) := by
      conv_lhs => rw [hdec]
      rw [List.filterMap_append, List.filterMap_append,
        filterMap_nfdStrip_fixed (fun c hc => normalize_char_fixed hc),
        List.append_assoc]
    obtain ⟨u, v, huv⟩ := collapse_pres hGT hHN hq
      (((t.map jsLower).take i).filterMap nfdStrip) false
      (((t.map jsLower).drop (i + (normalize q).length)).filterMap nfdStrip)
    obtain ⟨u2, v2, huv2⟩ := trim_pres hHN hHR hq u v
    have heq : normalize t = u2 ++ (normalize q ++ v2) := by
      show trimSpaces (collapseWsAux false ((t.map jsLower).filterMap nfdStrip)) = _
      rw [hstrip, huv, huv2]
    rw [heq]
    exact containsSub_parts _ _ _

theorem containsSub_window (l : List Char) (s i L e : Nat)
    (hsi : s ≤ i) (hie : i + L ≤ e) (a b : List Char) :
    containsSub (a ++ (l.drop s).take (e - s) ++ b) ((l.drop i).take L) = true := by
  have h1 : ((l.drop s).take (e - s)).drop (i - s) = (l.drop i).take (e - i) := by
    rw [List.drop_take, List.drop_drop]
    have e1 : e - s - (i - s) = e - i := by omega
    have e2 : s + (i - s) = i := by omega
    rw [e1, e2]
  have h2 : ((l.drop i).take (e - i)).take L = (l.drop i).take L := by
    rw [List.take_take]
    have e3 : min L (e - i) = L := by omega
    rw [e3]
  have h3 : (l.drop s).take (e - s)
      = ((l.drop s).take (e - s)).take (i - s)
        ++ ((l.drop i).take L ++ ((l.drop i).take (e - i)).drop L) := by
    rw [← h2, List.take_append_drop, ← h1, List.take_append_drop]
  conv_lhs => rw [h3]
  have h4 := containsSub_parts (a ++ ((l.drop s).take (e - s)).take (i - s))
    ((l.drop i).take L)
    (((l.drop i).take (e - i)).drop L ++ b)
  simpa [List.append_assoc] using h4

/-- C4: if the whitespace-collapsed, lower-cased content contains the
normalized query at first index `i`, the snippet is exactly the substring
of the collapsed (case- and accent-preserved) content from `max(0, i-70)`
to `min(N, i+L+90)`, with an ellipsis on each side exactly when clipped on
that side, and it contains the matched text. -/
theorem C4_snippet_window (content q : List Char) (i : Nat)
    (h : indexOfSub ((collapseWs content).map jsLower) (normalize q) = some i) :
    makeSnippet content (normalize q) = some (specSnippet content (normalize q) i)
    ∧ containsSub (specSnippet content (normalize q) i)
        (((collapseWs content).drop i).take (normalize q).length) = true := by
  have hcont : containsSub ((collapseWs content).map jsLower) (normalize q) = true := by
    simp [containsSub, h]
  have hlower := contains_normalize_of_lower hcont
  rcases Option.isSome_iff_exists.mp (by simpa [containsSub] using hlower) with ⟨j, hj⟩
  have hbound := indexOfSub_bound h
  rw [List.length_map] at hbound
  constructor
  · simp only [makeSnippet, specSnippet]
    rw [hj, h]
  · simp only [specSnippet]
    exact containsSub_window (collapseWs content) (i - 70) i (normalize q).length
      (min (collapseWs content).length (i + (normalize q).length + 90))
      (by omega) (Nat.le_min.mpr ⟨hbound, by omega⟩) _ _

/-- Witness for C4 at content "Hello world" and query "world" (match at
index 6, no clipping on either side). -/
theorem C4_snippet_window_witness :
    indexOfSub ((collapseWs "Hello world".data).map jsLower) (normalize "world".data)
        = some 6
    ∧ (makeSnippet "Hello world".data (normalize "world".data)
          = some (specSnippet "Hello world".data (normalize "world".data) 6)
        ∧ containsSub (specSnippet "Hello world".data (normalize "world".data) 6)
            (((collapseWs "Hello world".data).drop 6).take (normalize "world".data).length)
          = true) :=
  ⟨by decide, C4_snippet_window "Hello world".data "world".data 6 (by decide)⟩

end DocSearch
